import Mathlib

/-!
# Azure instance-metadata client (`azure/meta.go`, `internal/funcs/azure.go`)

A shallow embedding of the metadata-retrieval client and of the template
namespace that owns it, followed by the properties proved about them.

Modelling conventions

* A Go `string` is a `List Char` (`GoString`).  Every separator and pattern the
  code uses (`;`, `:`, `/`, `loadbalancer/`, `compute/tags/`) is ASCII, so
  splitting and matching on characters agrees with Go's byte-level behaviour on
  valid UTF-8 text.
* A run-time panic (index out of range) is the outer `none` of an `Option`.
* A Go `error` result is an inner `Option Error`, `none` being `nil`.
* The HTTP exchange, the environment and the `gjson` library are outside the
  repository; they are parameters collected in `World`.
-/

set_option autoImplicit false

namespace Azure

/-- A Go string. -/
abbrev GoString := List Char

/-! ## Library functions the code calls -/

/-- Go `strings.Split(s, sep)` for a one-character separator, the only way the
code calls it.  The result is never empty: splitting `""` gives `[""]`. -/
def Split : GoString → Char → List GoString
  | [], _ => [[]]
  | c :: cs, sep =>
    if c = sep then [] :: Split cs sep
    else
      match Split cs sep with
      | [] => [[c]]
      | p :: ps => (c :: p) :: ps

/-- Go `strings.Replace(s, old, new, -1)` for one-character `old` and `new`:
every occurrence is replaced. -/
def Replace : GoString → Char → Char → GoString
  | [], _, _ => []
  | c :: cs, old, new => (if c = old then new else c) :: Replace cs old new

/-- Go `strings.Join(elems, sep)` for a one-character separator. -/
def Join : List GoString → Char → GoString
  | [], _ => []
  | [e], _ => e
  | e :: e2 :: es, sep => e ++ sep :: Join (e2 :: es) sep

/-- Go `strings.HasPrefix(s, lit)`. -/
def HasPrefix : GoString → GoString → Bool
  | _, [] => true
  | [], _ :: _ => false
  | c :: cs, l :: ls => c == l && HasPrefix cs ls

/-- An unanchored match, as done by `regexp.MatchString`: the pattern, given as
a test on what follows a position, matches if it matches at some position. -/
def matchAnywhere (p : GoString → Bool) : GoString → Bool
  | [] => p []
  | c :: cs => p (c :: cs) || matchAnywhere p cs

/-! ## `azure/meta.go` -/

/-- The variable `DefaultAzureEndpoint`. -/
def DefaultAzureEndpoint : GoString :=
  "http://169.254.169.254/metadata/instance/".toList

/-- The variable `lbMetadataEndpoint`. -/
def lbMetadataEndpoint : GoString :=
  "http://169.254.169.254:80/metadata/loadbalancer?api-version=2021-02-01".toList

/-- The query string `Meta` appends to instance-metadata URLs. -/
def apiSuffix : GoString := "?api-version=2017-08-01&format=text".toList

/-- The function `returnDefault`: the first element of `def`, or `""`. -/
def returnDefault (defs : List GoString) : GoString :=
  match defs with
  | d :: _ => d
  | [] => []

/-- The `for` loop of `extractTagValue` over the `;`-separated entries, threading
the variable `result`.  `tagvalue[1]` panics when the entry has no `:`. -/
def extractTagValue.loop (tag : GoString) : List GoString → GoString → Option GoString
  | [], result => some result
  | v :: rest, result =>
    let tagvalue := Split v ':'
    if 0 < tagvalue.length ∧ tagvalue[0]? = some tag then
      match tagvalue[1]? with
      | none => none
      | some x => extractTagValue.loop tag rest x
    else extractTagValue.loop tag rest result

/-- The function `extractTagValue`; `none` is the index-out-of-range panic. -/
def extractTagValue (tag : GoString) (result : GoString) : Option GoString :=
  let initialResult := result
  let tagsSlice := Split result ';'
  match extractTagValue.loop tag tagsSlice result with
  | none => none
  | some result => some (if initialResult = result then [] else result)

/-- What `gjson.Get` returns, as far as the code looks at it: `Exists()` and
`String()`. -/
structure GjsonResult where
  doesExist : Bool
  asString : GoString

/-- The outcome of the HTTP exchange for one URL.  `requestError` is
`http.NewRequestWithContext` failing, `transportError` is `c.client.Do` failing
(after the retries of the transport), and in a `response` the body is `none`
when `io.ReadAll` fails. -/
inductive Exchange where
  | requestError
  | transportError
  | response (StatusCode : Int) (body : Option GoString)

/-- Everything outside the repository that the code consults. -/
structure World where
  getenv : GoString → GoString
  exchange : GoString → Exchange
  gjsonGet : GoString → GoString → GjsonResult

/-- The error built by `fmt.Errorf("failed to read response body from %s: %w", url, err)`. -/
structure Error where
  url : GoString
  deriving DecidableEq

/-- The type `ClientOptions`; `Timeout` is a `time.Duration` in nanoseconds. -/
structure ClientOptions where
  Timeout : Int
  deriving DecidableEq

/-- The `*http.Client` that `retrieveMetadata` builds from a retryable client. -/
structure HttpClient where
  Timeout : Int
  RetryMax : Nat
  logging : Bool
  deriving DecidableEq

/-- The type `MetaClient` (its `ctx` is part of `World.exchange`; its `cache` is
never read or written). -/
structure MetaClient where
  client : Option HttpClient
  endpoint : GoString
  options : ClientOptions
  deriving DecidableEq

/-- The value a call returns: `none` is a panic, otherwise the pair
`(string, error)`. -/
abbrev Returned := Option (GoString × Option Error)

/-- The body of `NewMetaClient`: the object it constructs. -/
def NewMetaClient.object (W : World) (options : ClientOptions) : MetaClient :=
  let endpoint := W.getenv "GCP_META_ENDPOINT".toList
  let endpoint := if endpoint = [] then DefaultAzureEndpoint else endpoint
  { client := none, endpoint := endpoint, options := options }

/-- The function `extractJsonValue`. -/
def extractJsonValue (W : World) (json : GoString) (path : GoString) : GoString :=
  let lbPath := Replace path '/' '.'
  let value := W.gjsonGet json lbPath
  if !value.doesExist then [] else value.asString

/-- The regular expression `loadbalancer/` of `Meta`, as `hasLb.MatchString`. -/
def hasLb (key : GoString) : Bool :=
  matchAnywhere (fun s => HasPrefix s "loadbalancer/".toList) key

/-- The regular expression `compute/tags/[a-zA-z].*` tried at one position: the
literal, then one character of the class `a-z` or `A-z`; the trailing `.*`
matches the empty text, so it never decides the match. -/
def hasTagsAt (s : GoString) : Bool :=
  HasPrefix s "compute/tags/".toList &&
    match s.drop 13 with
    | c :: _ => (97 ≤ c.toNat && c.toNat ≤ 122) || (65 ≤ c.toNat && c.toNat ≤ 122)
    | [] => false

/-- The regular expression `compute/tags/[a-zA-z].*` of `Meta`, as
`hasTags.MatchString`. -/
def hasTags (key : GoString) : Bool := matchAnywhere hasTagsAt key

/-- The transport built on the first use of a client. -/
def buildClient (W : World) (options : ClientOptions) : HttpClient :=
  let timeout := options.Timeout
  let timeout := if timeout = 0 then 500 * 1000000 else timeout
  let debug := W.getenv "GOMPLATE_DEBUG".toList
  { Timeout := timeout, RetryMax := 3, logging := !(debug = []) }

/-- The method `MetaClient.retrieveMetadata`: the client afterwards and what is
returned. -/
def retrieveMetadata (W : World) (c : MetaClient) (lb : GoString) (tag : GoString)
    (url : GoString) (defs : List GoString) : MetaClient × Returned :=
  let c :=
    if c.client = none then { c with client := some (buildClient W c.options) } else c
  match W.exchange url with
  | .requestError => (c, some (returnDefault defs, none))
  | .transportError => (c, some (returnDefault defs, none))
  | .response StatusCode body =>
    if StatusCode > 399 then (c, some (returnDefault defs, none))
    else
      match body with
      | none => (c, some ([], some ⟨url⟩))
      | some body =>
        let result := body
        let result := if url = lbMetadataEndpoint then extractJsonValue W body lb else result
        if tag ≠ [] then
          match extractTagValue tag result with
          | none => (c, none)
          | some result => (c, some (result, none))
        else (c, some (result, none))

/-- The method `MetaClient.Meta`; `tags[2]` panics when the key has fewer than
three `/`-separated parts. -/
def Meta (W : World) (c : MetaClient) (key : GoString) (defs : List GoString) :
    MetaClient × Returned :=
  let tag : GoString := []
  let lb : GoString := []
  if hasLb key then
    let url := lbMetadataEndpoint
    let lb := key
    retrieveMetadata W c lb tag url defs
  else if hasTags key then
    let tags := Split key '/'
    match tags[2]? with
    | none => (c, none)
    | some tag =>
      let key := "compute/tags".toList
      let url := c.endpoint ++ key ++ apiSuffix
      retrieveMetadata W c lb tag url defs
  else
    let url := c.endpoint ++ key ++ apiSuffix
    retrieveMetadata W c lb tag url defs

/-! ## `internal/funcs/azure.go` -/

/-- The objects allocated so far (a `*MetaClient` is an index into `clients`)
and the number of times `NewMetaClient` has been entered. -/
structure Runtime where
  clients : List MetaClient
  newMetaClientCalls : Nat

/-- The function `NewMetaClient`: counts the call, allocates the object and
returns the pointer to it. -/
def NewMetaClient (W : World) (options : ClientOptions) (rt : Runtime) : Runtime × Nat :=
  ({ clients := rt.clients ++ [NewMetaClient.object W options],
     newMetaClientCalls := rt.newMetaClientCalls + 1 }, rt.clients.length)

/-- The state of one function value returned by `sync.OnceValue(f)`: the result
of `f` once it has run. -/
structure OnceValue (α : Type) where
  result : Option α

/-- Go `sync.OnceValue(f)`: a new function value, whose `f` has not run. -/
def OnceValue.new {α : Type} : OnceValue α := ⟨none⟩

/-- Calling the function returned by `sync.OnceValue(f)`: `f` runs on the first
call of this function value only. -/
def OnceValue.call {σ α : Type} (o : OnceValue α) (f : σ → σ × α) (s : σ) :
    OnceValue α × σ × α :=
  match o.result with
  | some v => (o, s, v)
  | none =>
    let r := f s
    (⟨some r.2⟩, r.1, r.2)

/-- The type `AzureFuncs`; `metaClient` is its field `meta`. -/
structure AzureFuncs where
  metaClient : Option Nat
  gcpopts : ClientOptions

/-- The method `AzureFuncs.Meta`: `sync.OnceValue` is applied to the
constructor inside the method, and the function it returns is called at once. -/
def AzureFuncs.Meta (W : World) (rt : Runtime) (a : AzureFuncs) (key : GoString)
    (defs : List GoString) : (Runtime × AzureFuncs) × Returned :=
  let once : OnceValue Nat := OnceValue.new
  let r := once.call (NewMetaClient W a.gcpopts) rt
  let rt := r.2.1
  let a := { a with metaClient := some r.2.2 }
  match a.metaClient with
  | none => ((rt, a), none)
  | some p =>
    match rt.clients[p]? with
    | none => ((rt, a), none)
    | some c =>
      let out := Azure.Meta W c key defs
      (({ rt with clients := rt.clients.set p out.1 }, a), out.2)

/-- The namespace as `CreateAzureFuncs` makes it, before any call. -/
def CreateAzureFuncs (gcpopts : ClientOptions) : Runtime × AzureFuncs :=
  ({ clients := [], newMetaClientCalls := 0 }, { metaClient := none, gcpopts := gcpopts })

/-- Sequential calls of `AzureFuncs.Meta` on one namespace, the results
discarded. -/
def AzureFuncs.calls (W : World) : Runtime × AzureFuncs → List (GoString × List GoString) →
    Runtime × AzureFuncs
  | s, [] => s
  | s, (key, defs) :: rest =>
    AzureFuncs.calls W (AzureFuncs.Meta W s.1 s.2 key defs).1 rest

/-- The text of one tag-list entry, `name:value`. -/
def entryText (e : GoString × GoString) : GoString := e.1 ++ ':' :: e.2

/-- A tag list: the entries `name:value` joined with `;`. -/
def tagList (entries : List (GoString × GoString)) : GoString :=
  Join (entries.map entryText) ';'

/-- The name of an entry: the text before its first `:`. -/
def entryName (entry : GoString) : GoString := entry.takeWhile (fun c => c != ':')

/-- The URL that `Meta` hands to `retrieveMetadata` for a key. -/
def requestURL (endpoint : GoString) (key : GoString) : GoString :=
  if hasLb key then lbMetadataEndpoint
  else if hasTags key then endpoint ++ "compute/tags".toList ++ apiSuffix
  else endpoint ++ key ++ apiSuffix

/-- An ASCII letter, `a`-`z` or `A`-`Z`. -/
def isAsciiLetter (c : Char) : Bool :=
  (97 ≤ c.toNat && c.toNat ≤ 122) || (65 ≤ c.toNat && c.toNat ≤ 90)

/-- A world in which every exchange is answered with the given status and body,
no environment variable is set and `gjson` finds nothing. -/
def constWorld (StatusCode : Int) (body : Option GoString) : World :=
  { getenv := fun _ => [],
    exchange := fun _ => .response StatusCode body,
    gjsonGet := fun _ _ => ⟨false, []⟩ }

/-- A client as `NewMetaClient` makes it when no endpoint is configured. -/
def freshClient : MetaClient :=
  { client := none, endpoint := DefaultAzureEndpoint, options := ⟨0⟩ }

/-- The load-balancer document of `Test_extractJsonValue`. -/
def testDocument : GoString :=
  ("\x7b\"loadbalancer\":\x7b\"publicIpAddresses\":[\x7b\"frontendIpAddress\":\"20.55.51.220\"," ++
   "\"privateIpAddress\":\"10.1.0.4\"\x7d],\"inboundRules\":[],\"outboundRules\":[]\x7d\x7d").toList

/-- A world whose `gjson` resolves, in `testDocument`, the one path
`loadbalancer.publicIpAddresses.0.frontendIpAddress`, to `20.55.51.220`, as the
library does, and resolves nothing else. -/
def testWorld : World :=
  { getenv := fun _ => [],
    exchange := fun _ => .response 200 (some testDocument),
    gjsonGet := fun json path =>
      if json = testDocument ∧
          path = "loadbalancer.publicIpAddresses.0.frontendIpAddress".toList then
        ⟨true, "20.55.51.220".toList⟩
      else ⟨false, []⟩ }

/-! ## Facts about the library functions -/

theorem Split_ne_nil (s : GoString) (sep : Char) : Split s sep ≠ [] := by
  induction s with
  | nil => simp [Split]
  | cons c cs ih =>
    unfold Split
    split
    · simp
    · split <;> simp

theorem Split_of_not_mem (s : GoString) (sep : Char) (h : sep ∉ s) : Split s sep = [s] := by
  induction s with
  | nil => simp [Split]
  | cons c cs ih =>
    have hc : ¬ c = sep := fun e => h (by simp [e])
    have hcs : sep ∉ cs := fun e => h (by simp [e])
    simp [Split, hc, ih hcs]

theorem Split_append_sep (a b : GoString) (sep : Char) (h : sep ∉ a) :
    Split (a ++ sep :: b) sep = a :: Split b sep := by
  induction a with
  | nil => simp [Split]
  | cons c cs ih =>
    have hc : ¬ c = sep := fun e => h (by simp [e])
    have hcs : sep ∉ cs := fun e => h (by simp [e])
    simp [Split, hc, ih hcs]

theorem Split_head (s : GoString) (sep : Char) :
    (Split s sep)[0]? = some (s.takeWhile (fun c => c != sep)) := by
  induction s with
  | nil => simp [Split]
  | cons c cs ih =>
    by_cases hc : c = sep
    · simp [Split, hc]
    · have hne := Split_ne_nil cs sep
      cases hsp : Split cs sep with
      | nil => exact absurd hsp hne
      | cons p ps =>
        rw [hsp] at ih
        simp at ih
        have hc2 : (c != sep) = true := by simpa using hc
        simp [Split, hc, hsp, List.takeWhile, ih, hc2]

theorem Split_length (s : GoString) (sep : Char) :
    (Split s sep).length = s.count sep + 1 := by
  induction s with
  | nil => simp [Split]
  | cons c cs ih =>
    by_cases hc : c = sep
    · simp [Split, hc, ih]
    · have hne := Split_ne_nil cs sep
      cases hsp : Split cs sep with
      | nil => exact absurd hsp hne
      | cons p ps =>
        rw [hsp] at ih
        have hc2 : ¬ (c == sep) = true := by simpa using hc
        simp [Split, hc, hsp, List.count_cons, hc2]
        simpa using ih

theorem Split_Join (l : List GoString) (sep : Char) (hl : l ≠ [])
    (h : ∀ e ∈ l, sep ∉ e) : Split (Join l sep) sep = l := by
  induction l with
  | nil => exact absurd rfl hl
  | cons e es ih =>
    cases es with
    | nil => simpa [Join] using Split_of_not_mem e sep (h e (by simp))
    | cons e2 es2 =>
      have h1 : sep ∉ e := h e (by simp)
      have h2 : ∀ x ∈ e2 :: es2, sep ∉ x := fun x hx => h x (by simp [hx])
      simp only [Join]
      rw [Split_append_sep e _ sep h1, ih (by simp) h2]

theorem mem_Join (l : List GoString) (sep : Char) (e : GoString) (c : Char)
    (he : e ∈ l) (hc : c ∈ e) : c ∈ Join l sep := by
  induction l with
  | nil => simp at he
  | cons x xs ih =>
    cases xs with
    | nil =>
      simp at he
      simpa [Join, he] using hc
    | cons x2 xs2 =>
      simp only [Join]
      rcases List.mem_cons.mp he with rfl | he2
      · simp [hc]
      · have := ih he2
        simp [this]

/-! ## Facts about the loop of `extractTagValue` -/

theorem loop_miss (tag : GoString) (l : List GoString) (r : GoString)
    (h : ∀ v ∈ l, entryName v ≠ tag) : extractTagValue.loop tag l r = some r := by
  induction l generalizing r with
  | nil => simp [extractTagValue.loop]
  | cons v rest ih =>
    have hv : entryName v ≠ tag := h v (by simp)
    have hrest : ∀ x ∈ rest, entryName x ≠ tag := fun x hx => h x (by simp [hx])
    have h0 : (Split v ':')[0]? = some (entryName v) := Split_head v ':'
    unfold extractTagValue.loop
    simp only [h0]
    rw [if_neg]
    · exact ih r hrest
    · intro hh
      exact hv (Option.some.inj hh.2)

theorem loop_entry (tag : GoString) (e : GoString × GoString) (rest : List GoString)
    (r : GoString) (h : ':' ∉ e.1) :
    extractTagValue.loop tag (entryText e :: rest) r =
      if e.1 = tag then extractTagValue.loop tag rest (entryName e.2)
      else extractTagValue.loop tag rest r := by
  have hs : Split (entryText e) ':' = e.1 :: Split e.2 ':' := Split_append_sep e.1 e.2 ':' h
  have h1 : (Split e.2 ':')[0]? = some (entryName e.2) := Split_head e.2 ':'
  simp only [extractTagValue.loop, hs]
  by_cases ht : e.1 = tag
  · simp [ht, h1]
  · simp [ht]

theorem loop_absent (tag : GoString) (es : List (GoString × GoString)) (r : GoString)
    (hc : ∀ e ∈ es, ':' ∉ e.1) (h : tag ∉ es.map Prod.fst) :
    extractTagValue.loop tag (es.map entryText) r = some r := by
  induction es generalizing r with
  | nil => simp [extractTagValue.loop]
  | cons e rest ih =>
    have he : ¬ e.1 = tag := fun hh => h (by simp [hh])
    have hr : tag ∉ rest.map Prod.fst := fun hh => h (by
      rw [List.map_cons]; exact List.mem_cons_of_mem _ hh)
    rw [List.map_cons, loop_entry tag e _ r (hc e (by simp)), if_neg he]
    exact ih r (fun x hx => hc x (by simp [hx])) hr

theorem loop_present (n v : GoString) (es : List (GoString × GoString)) (r : GoString)
    (hc : ∀ e ∈ es, ':' ∉ e.1) (hnd : (es.map Prod.fst).Nodup) (hm : (n, v) ∈ es) :
    extractTagValue.loop n (es.map entryText) r = some (entryName v) := by
  induction es generalizing r with
  | nil => simp at hm
  | cons e rest ih =>
    rw [List.map_cons, List.nodup_cons] at hnd
    have hcr : ∀ x ∈ rest, ':' ∉ x.1 := fun x hx => hc x (by simp [hx])
    rw [List.map_cons, loop_entry n e _ r (hc e (by simp))]
    rcases List.mem_cons.mp hm with heq | hin
    · subst heq
      simp only [if_true]
      exact loop_absent n rest _ hcr hnd.1
    · have hne : ¬ e.1 = n := by
        intro hh
        apply hnd.1
        rw [hh]
        exact List.mem_map.mpr ⟨(n, v), hin, rfl⟩
      rw [if_neg hne]
      exact ih r hcr hnd.2 hin

theorem entryName_of_not_mem (v : GoString) (h : ':' ∉ v) : entryName v = v := by
  unfold entryName
  rw [List.takeWhile_eq_self_iff]
  intro c hc
  have : c ≠ ':' := fun e => h (e ▸ hc)
  simpa using this

theorem colon_not_mem_entryName (v : GoString) : ':' ∉ entryName v := by
  unfold entryName
  intro h
  have := List.mem_takeWhile_imp h
  simp at this

/-- What `extractTagValue` returns for an existing name of a tag list whose
names are distinct and free of `:` and whose entries are free of `;`: the value
up to its first `:`. -/
theorem extractTagValue_tagList (entries : List (GoString × GoString)) (n v : GoString)
    (hnd : (entries.map Prod.fst).Nodup)
    (hwf : ∀ e ∈ entries, ':' ∉ e.1 ∧ ';' ∉ e.1 ∧ ';' ∉ e.2)
    (hm : (n, v) ∈ entries) :
    extractTagValue n (tagList entries) = some (entryName v) := by
  have hne : entries.map entryText ≠ [] := by
    intro h
    rw [List.map_eq_nil_iff] at h
    rw [h] at hm
    simp at hm
  have hsemi : ∀ x ∈ entries.map entryText, ';' ∉ x := by
    intro x hx
    obtain ⟨e, he, rfl⟩ := List.mem_map.mp hx
    have := hwf e he
    simp [entryText, this.2.1, this.2.2]
  have hsplit : Split (tagList entries) ';' = entries.map entryText :=
    Split_Join _ ';' hne hsemi
  have hloop := loop_present n v entries (tagList entries) (fun e he => (hwf e he).1) hnd hm
  have hcolon : ':' ∈ tagList entries :=
    mem_Join _ ';' (entryText (n, v)) ':' (List.mem_map.mpr ⟨(n, v), hm, rfl⟩)
      (by simp [entryText])
  have hdiff : ¬ tagList entries = entryName v := by
    intro h
    rw [h] at hcolon
    exact colon_not_mem_entryName v hcolon
  unfold extractTagValue
  simp only [hsplit, hloop, if_neg hdiff]

/-! ## Facts about `Meta` and `retrieveMetadata` -/

theorem HasPrefix_eq_append (s l : GoString) (h : HasPrefix s l = true) :
    ∃ r, s = l ++ r := by
  induction l generalizing s with
  | nil => exact ⟨s, rfl⟩
  | cons x xs ih =>
    cases s with
    | nil => simp [HasPrefix] at h
    | cons c cs =>
      simp [HasPrefix] at h
      obtain ⟨r, hr⟩ := ih cs h.2
      exact ⟨r, by simp [h.1, hr]⟩

theorem HasPrefix_iff (s l : GoString) : HasPrefix s l = true ↔ l <+: s := by
  induction l generalizing s with
  | nil => simp [HasPrefix]
  | cons x xs ih =>
    cases s with
    | nil => simp [HasPrefix]
    | cons c cs =>
      simp only [HasPrefix, Bool.and_eq_true, beq_iff_eq, ih cs, List.cons_prefix_cons]
      constructor
      · rintro ⟨a, b⟩
        exact ⟨a.symm, b⟩
      · rintro ⟨a, b⟩
        exact ⟨a.symm, b⟩

/-- The pattern `loadbalancer/` matches exactly the keys that contain it. -/
theorem hasLb_iff (key : GoString) : hasLb key = true ↔ "loadbalancer/".toList <:+: key := by
  unfold hasLb
  induction key with
  | nil =>
    simp only [matchAnywhere, HasPrefix_iff]
    constructor
    · intro h
      exact h.isInfix
    · intro h
      rw [List.infix_nil] at h
      rw [h]
  | cons c cs ih =>
    simp only [matchAnywhere, Bool.or_eq_true, HasPrefix_iff, ih, List.infix_cons_iff]

theorem hasTagsAt_count (s : GoString) (h : hasTagsAt s = true) : 2 ≤ s.count '/' := by
  unfold hasTagsAt at h
  rw [Bool.and_eq_true] at h
  obtain ⟨r, hr⟩ := HasPrefix_eq_append s _ h.1
  rw [hr, List.count_append]
  have : List.count '/' "compute/tags/".toList = 2 := by decide
  omega

theorem hasTags_count (key : GoString) (h : hasTags key = true) : 2 ≤ key.count '/' := by
  unfold hasTags at h
  induction key with
  | nil => exact hasTagsAt_count [] (by simpa [matchAnywhere] using h)
  | cons c cs ih =>
    simp only [matchAnywhere, Bool.or_eq_true] at h
    rcases h with h | h
    · exact hasTagsAt_count _ h
    · have := ih h
      rw [List.count_cons]
      omega

/-- The index `tags[2]` of `Meta` is in range for every key the tag pattern
matches. -/
theorem hasTags_index (key : GoString) (h : hasTags key = true) :
    ∃ tag, (Split key '/')[2]? = some tag := by
  have hl : 2 < (Split key '/').length := by
    rw [Split_length]
    have := hasTags_count key h
    omega
  exact ⟨(Split key '/')[2], List.getElem?_eq_getElem hl⟩

theorem url_ne_lb (x : GoString) : x ++ apiSuffix ≠ lbMetadataEndpoint := by
  intro h
  have h2 := congrArg (fun l => l.reverse.head?) h
  have h3 : (lbMetadataEndpoint.reverse).head? = some '1' := by decide
  have h4 : (x ++ apiSuffix).reverse.head? = some 't' := by
    rw [List.reverse_append]
    have : apiSuffix.reverse = 't' :: "xet=tamrof&10-80-7102=noisrev-ipa?".toList := by decide
    rw [this]
    rfl
  simp only [h3, h4] at h2
  exact absurd h2 (by decide)

/-- The call `Meta` makes: `retrieveMetadata` on `requestURL`. -/
theorem Meta_call (W : World) (c : MetaClient) (key : GoString) (defs : List GoString) :
    ∃ lb tag, Meta W c key defs = retrieveMetadata W c lb tag (requestURL c.endpoint key) defs := by
  unfold Meta requestURL
  by_cases h1 : hasLb key = true
  · exact ⟨key, [], by simp [h1]⟩
  · by_cases h2 : hasTags key = true
    · obtain ⟨tag, ht⟩ := hasTags_index key h2
      exact ⟨[], tag, by simp [h1, h2, ht]⟩
    · exact ⟨[], [], by simp [h1, h2]⟩

theorem retrieveMetadata_failure (W : World) (c : MetaClient) (lb tag url : GoString)
    (defs : List GoString)
    (h : W.exchange url = .requestError ∨ W.exchange url = .transportError ∨
      ∃ st body, W.exchange url = .response st body ∧ 400 ≤ st) :
    (retrieveMetadata W c lb tag url defs).2 = some (returnDefault defs, none) := by
  unfold retrieveMetadata
  rcases h with h | h | ⟨st, body, h, hst⟩
  · simp [h]
  · simp [h]
  · have : st > 399 := by omega
    simp [h, this]

theorem retrieveMetadata_error (W : World) (c : MetaClient) (lb tag url : GoString)
    (defs : List GoString) (v : GoString) (e : Error) :
    (retrieveMetadata W c lb tag url defs).2 = some (v, some e) ↔
      (∃ st, W.exchange url = .response st none ∧ st < 400) ∧ v = [] ∧ e = ⟨url⟩ := by
  unfold retrieveMetadata
  cases hx : W.exchange url with
  | requestError => simp
  | transportError => simp
  | response st body =>
    by_cases hst : st > 399
    · have : ¬ st < 400 := by omega
      simp [hst, this]
    · have h4 : st < 400 := by omega
      cases body with
      | none =>
        simp [hst, h4]
        intro _
        exact eq_comm
      | some b =>
        simp only [hst, if_false]
        split <;> (try split) <;> simp

theorem retrieveMetadata_ok (W : World) (c : MetaClient) (lb tag url : GoString)
    (defs : List GoString) (st : Int) (body : GoString)
    (hx : W.exchange url = .response st (some body)) (hst : st < 400)
    (hurl : url ≠ lbMetadataEndpoint) :
    (retrieveMetadata W c lb tag url defs).2 =
      if tag ≠ [] then (extractTagValue tag body).map (fun r => (r, none))
      else some (body, none) := by
  have hst2 : ¬ st > 399 := by omega
  unfold retrieveMetadata
  simp only [hx]
  rw [if_neg hst2]
  simp only [if_neg hurl]
  by_cases ht : tag = []
  · simp [ht]
  · simp only [ne_eq, ht, not_false_eq_true, if_true]
    cases extractTagValue tag body <;> rfl

theorem Meta_tag_call (W : World) (c : MetaClient) (key tag : GoString)
    (defs : List GoString) (hlb : hasLb key = false) (htags : hasTags key = true)
    (hidx : (Split key '/')[2]? = some tag) :
    Meta W c key defs =
      retrieveMetadata W c [] tag (c.endpoint ++ "compute/tags".toList ++ apiSuffix) defs := by
  unfold Meta
  simp only [hlb, htags, hidx, if_true, Bool.false_eq_true, if_false]

theorem Meta_plain_call (W : World) (c : MetaClient) (key : GoString)
    (defs : List GoString) (hlb : hasLb key = false) (htags : hasTags key = false) :
    Meta W c key defs = retrieveMetadata W c [] [] (c.endpoint ++ key ++ apiSuffix) defs := by
  unfold Meta
  simp only [hlb, htags, Bool.false_eq_true, if_false]

/-! ## Default fallback and error policy -/

/-- C1: for every key and every defaults list, if building the request fails,
the transport returns an error, or the status code is at least 400, `Meta`
returns the first element of the defaults (the empty string when there is
none) together with a nil error. -/
theorem Meta_returns_default_on_failure (W : World) (c : MetaClient) (key : GoString)
    (defs : List GoString)
    (h : W.exchange (requestURL c.endpoint key) = .requestError ∨
      W.exchange (requestURL c.endpoint key) = .transportError ∨
      ∃ st body, W.exchange (requestURL c.endpoint key) = .response st body ∧ 400 ≤ st) :
    (Meta W c key defs).2 = some (defs.headD [], none) := by
  obtain ⟨lb, tag, hcall⟩ := Meta_call W c key defs
  rw [hcall, retrieveMetadata_failure W c lb tag _ defs h]
  cases defs <;> rfl

theorem Meta_returns_default_on_failure_witness :
    (constWorld 404 none).exchange (requestURL freshClient.endpoint "compute/name".toList)
        = .response 404 none ∧
      (Meta (constWorld 404 none) freshClient "compute/name".toList ["fallback".toList]).2
        = some ("fallback".toList, none) :=
  ⟨rfl, Meta_returns_default_on_failure (constWorld 404 none) freshClient
    "compute/name".toList ["fallback".toList] (Or.inr (Or.inr ⟨404, none, rfl, by decide⟩))⟩

/-- C2: `Meta` returns a non-nil error exactly when the exchange completed with
a status below 400 and reading the body failed; the value returned with the
error is the empty string, whatever the defaults are. -/
theorem Meta_error_iff (W : World) (c : MetaClient) (key : GoString) (defs : List GoString) :
    ((∃ v e, (Meta W c key defs).2 = some (v, some e)) ↔
      ∃ st, W.exchange (requestURL c.endpoint key) = .response st none ∧ st < 400) ∧
    (∀ v e, (Meta W c key defs).2 = some (v, some e) → v = []) := by
  obtain ⟨lb, tag, hcall⟩ := Meta_call W c key defs
  rw [hcall]
  constructor
  · constructor
    · rintro ⟨v, e, h⟩
      exact ((retrieveMetadata_error W c lb tag _ defs v e).mp h).1
    · intro h
      exact ⟨[], ⟨requestURL c.endpoint key⟩,
        (retrieveMetadata_error W c lb tag _ defs _ _).mpr ⟨h, rfl, rfl⟩⟩
  · intro v e h
    exact ((retrieveMetadata_error W c lb tag _ defs v e).mp h).2.1

theorem Meta_error_iff_witness :
    (Meta (constWorld 200 none) freshClient "compute/name".toList ["fallback".toList]).2
        = some ([], some ⟨requestURL freshClient.endpoint "compute/name".toList⟩) ∧
      ([] : GoString) = [] :=
  ⟨by decide,
    (Meta_error_iff (constWorld 200 none) freshClient "compute/name".toList
      ["fallback".toList]).2 [] ⟨requestURL freshClient.endpoint "compute/name".toList⟩
      (by decide)⟩

/-! ## Tag extraction -/

/-- C3: for a tag list made by joining with `;` one or more entries
`name:value` whose names are pairwise distinct and non-empty and whose names
and values contain neither `:` nor `;`, `extractTagValue` returns exactly the
value of every entry whose name is requested. -/
theorem extractTagValue_existing (entries : List (GoString × GoString)) (n v : GoString)
    (hnd : (entries.map Prod.fst).Nodup)
    (hwf : ∀ e ∈ entries, e.1 ≠ [] ∧ ':' ∉ e.1 ∧ ';' ∉ e.1 ∧ ':' ∉ e.2 ∧ ';' ∉ e.2)
    (hm : (n, v) ∈ entries) :
    extractTagValue n (tagList entries) = some v := by
  have h := extractTagValue_tagList entries n v hnd
    (fun e he => ⟨(hwf e he).2.1, (hwf e he).2.2.1, (hwf e he).2.2.2.2⟩) hm
  rw [h, entryName_of_not_mem v (hwf (n, v) hm).2.2.2.1]

theorem extractTagValue_existing_witness :
    tagList [("blah".toList, "somevalue".toList), ("kukta".toList, "someothervalue".toList)]
        = "blah:somevalue;kukta:someothervalue".toList ∧
      extractTagValue "blah".toList
        (tagList [("blah".toList, "somevalue".toList), ("kukta".toList, "someothervalue".toList)])
        = some "somevalue".toList :=
  ⟨by decide,
    extractTagValue_existing
      [("blah".toList, "somevalue".toList), ("kukta".toList, "someothervalue".toList)]
      "blah".toList "somevalue".toList (by decide) (by decide) (by decide)⟩

/-- C4 fails on the code: in the tag list `url:http://host;env:prod` the names
are non-empty, distinct and free of `:` and `;`, the values are free of `;`,
and the value of the tag `url`, the text after the first `:` of its entry, is
`http://host`; `extractTagValue` splits the entry on every `:` and returns
`http`. -/
theorem extractTagValue_colon_value_truncated :
    tagList [("url".toList, "http://host".toList), ("env".toList, "prod".toList)]
        = "url:http://host;env:prod".toList ∧
      (["url".toList, "env".toList] : List GoString).Nodup ∧
      (∀ e ∈ [("url".toList, "http://host".toList), ("env".toList, "prod".toList)],
        e.1 ≠ [] ∧ ':' ∉ e.1 ∧ ';' ∉ e.1 ∧ ';' ∉ e.2) ∧
      Split "url:http://host".toList ':' = ["url".toList, "http".toList, "//host".toList] ∧
      extractTagValue "url".toList "url:http://host;env:prod".toList = some "http".toList ∧
      extractTagValue "url".toList "url:http://host;env:prod".toList
        ≠ some "http://host".toList := by
  decide

/-- The tag-extraction half of the missing-tag rule holds for every tag: when
no `;`-separated entry of the body has a name (the text before its first `:`)
equal to the tag, `extractTagValue` returns the empty string. -/
theorem extractTagValue_missing_tag (tag body : GoString)
    (hmiss : ∀ entry ∈ Split body ';', entryName entry ≠ tag) :
    extractTagValue tag body = some [] := by
  unfold extractTagValue
  simp [loop_miss tag _ body hmiss]

/-- C5 fails on the code: the key `a///compute/tags/x` is taken for a tag query
(it does not match `loadbalancer/`, and the tag pattern, which does not match
at the start of the key, matches further in), the tag read at `tags[2]` is the
empty string, no entry of the body `foo:bar` has the empty name, and yet
`Meta` returns the body `foo:bar`, not the empty string. -/
theorem Meta_empty_tag_returns_body :
    hasLb "a///compute/tags/x".toList = false ∧
      hasTagsAt "a///compute/tags/x".toList = false ∧
      hasTags "a///compute/tags/x".toList = true ∧
      Split "a///compute/tags/x".toList '/'
        = ["a".toList, [], [], "compute".toList, "tags".toList, "x".toList] ∧
      (Split "a///compute/tags/x".toList '/')[2]? = some [] ∧
      (∀ entry ∈ Split "foo:bar".toList ';', entryName entry ≠ []) ∧
      extractTagValue [] "foo:bar".toList = some [] ∧
      (Meta (constWorld 200 (some "foo:bar".toList)) freshClient "a///compute/tags/x".toList
        ["fallback".toList]).2 = some ("foo:bar".toList, none) ∧
      (Meta (constWorld 200 (some "foo:bar".toList)) freshClient "a///compute/tags/x".toList
        ["fallback".toList]).2 ≠ some ([], none) := by
  decide

/-- C10 fails on the code: for the tag `blah` and the body `blah`, whose only
entry has no `:`, the index `tagvalue[1]` is out of range and
`extractTagValue` panics; so does the `Meta` call for the key
`compute/tags/blah` that receives this body. -/
theorem extractTagValue_panics_without_colon :
    Split "blah".toList ':' = ["blah".toList] ∧
      extractTagValue "blah".toList "blah".toList = none ∧
      (Meta (constWorld 200 (some "blah".toList)) freshClient "compute/tags/blah".toList
        []).2 = none := by
  decide

/-! ## JSON extraction -/

theorem Replace_eq_map (s : GoString) (old new : Char) :
    Replace s old new = s.map (fun c => if c = old then new else c) := by
  induction s with
  | nil => rfl
  | cons c cs ih => simp [Replace, ih]

/-- C6: for every JSON document and every path, `extractJsonValue` looks up the
path obtained by replacing every `/` of the path with `.`; if that path
resolves it returns the string form of the value found, and if it does not
resolve it returns the empty string. -/
theorem extractJsonValue_lookup (W : World) (json path : GoString) :
    Replace path '/' '.' = path.map (fun c => if c = '/' then '.' else c) ∧
      ((W.gjsonGet json (Replace path '/' '.')).doesExist = true →
        extractJsonValue W json path = (W.gjsonGet json (Replace path '/' '.')).asString) ∧
      ((W.gjsonGet json (Replace path '/' '.')).doesExist = false →
        extractJsonValue W json path = []) := by
  refine ⟨Replace_eq_map path '/' '.', ?_, ?_⟩
  · intro h
    simp [extractJsonValue, h]
  · intro h
    simp [extractJsonValue, h]

theorem extractJsonValue_lookup_witness :
    Replace "loadbalancer/publicIpAddresses/0/frontendIpAddress".toList '/' '.'
        = "loadbalancer.publicIpAddresses.0.frontendIpAddress".toList ∧
      extractJsonValue testWorld testDocument
        "loadbalancer/publicIpAddresses/0/frontendIpAddress".toList = "20.55.51.220".toList ∧
      extractJsonValue testWorld testDocument "loadbalancer/missing".toList = [] :=
  ⟨by decide,
    (extractJsonValue_lookup testWorld testDocument
      "loadbalancer/publicIpAddresses/0/frontendIpAddress".toList).2.1 (by decide),
    (extractJsonValue_lookup testWorld testDocument
      "loadbalancer/missing".toList).2.2 (by decide)⟩

/-! ## Key classification -/

/-- C7 fails on the code: the key `compute/tags/_x` is taken for a tag query
and the tag looked up is `_x`, which does not begin with a letter; and the key
`x/compute/tags/blah`, which is not of the form `compute/tags/<tagname>`, is
taken for a tag query too, the tag looked up being `tags`. -/
theorem Meta_tag_query_not_letter_led (W : World) (c : MetaClient) (defs : List GoString) :
    hasLb "compute/tags/_x".toList = false ∧
      hasTags "compute/tags/_x".toList = true ∧
      Meta W c "compute/tags/_x".toList defs
        = retrieveMetadata W c [] "_x".toList
            (c.endpoint ++ "compute/tags".toList ++ apiSuffix) defs ∧
      "_x".toList.head?.map isAsciiLetter = some false ∧
      hasLb "x/compute/tags/blah".toList = false ∧
      hasTags "x/compute/tags/blah".toList = true ∧
      Meta W c "x/compute/tags/blah".toList defs
        = retrieveMetadata W c [] "tags".toList
            (c.endpoint ++ "compute/tags".toList ++ apiSuffix) defs :=
  ⟨by decide, by decide,
    Meta_tag_call W c _ _ defs (by decide) (by decide) (by decide),
    by decide, by decide, by decide,
    Meta_tag_call W c _ _ defs (by decide) (by decide) (by decide)⟩

/-- C9: for every endpoint and every key that is neither a load-balancer query
nor a tag query, `Meta` requests the endpoint followed by the key and
`?api-version=2017-08-01&format=text`, with an empty tag; that URL is never the
load-balancer endpoint, and when the response has a status below 400 and a
readable body, `Meta` returns that body unchanged with a nil error. -/
theorem Meta_plain_key (W : World) (c : MetaClient) (key : GoString) (defs : List GoString)
    (hlb : hasLb key = false) (htags : hasTags key = false) :
    Meta W c key defs
        = retrieveMetadata W c [] []
            (c.endpoint ++ key ++ "?api-version=2017-08-01&format=text".toList) defs ∧
      c.endpoint ++ key ++ "?api-version=2017-08-01&format=text".toList ≠ lbMetadataEndpoint ∧
      ∀ (st : Int) (body : GoString),
        W.exchange (c.endpoint ++ key ++ "?api-version=2017-08-01&format=text".toList)
          = .response st (some body) →
        st < 400 →
        (Meta W c key defs).2 = some (body, none) := by
  refine ⟨Meta_plain_call W c key defs hlb htags, url_ne_lb _, ?_⟩
  intro st body hx hst
  rw [Meta_plain_call W c key defs hlb htags]
  exact (retrieveMetadata_ok W c [] [] _ defs st body hx hst (url_ne_lb _)).trans (by simp)

theorem Meta_plain_key_witness :
    hasLb "compute/name".toList = false ∧ hasTags "compute/name".toList = false ∧
      (Meta (constWorld 200 (some "myvm".toList)) freshClient "compute/name".toList
        ["fallback".toList]).2 = some ("myvm".toList, none) :=
  ⟨by decide, by decide,
    (Meta_plain_key (constWorld 200 (some "myvm".toList)) freshClient "compute/name".toList
      ["fallback".toList] (by decide) (by decide)).2.2 200 "myvm".toList rfl (by decide)⟩

/-! ## The template namespace -/

theorem AzureFuncs_Meta_step (W : World) (rt : Runtime) (a : AzureFuncs) (key : GoString)
    (defs : List GoString) :
    (AzureFuncs.Meta W rt a key defs).1.1.newMetaClientCalls = rt.newMetaClientCalls + 1 ∧
      (AzureFuncs.Meta W rt a key defs).1.1.clients.length = rt.clients.length + 1 ∧
      (AzureFuncs.Meta W rt a key defs).1.2.metaClient = some rt.clients.length ∧
      (AzureFuncs.Meta W rt a key defs).1.2.gcpopts = a.gcpopts ∧
      (AzureFuncs.Meta W rt a key defs).2
        = (Azure.Meta W (NewMetaClient.object W a.gcpopts) key defs).2 := by
  simp [AzureFuncs.Meta, OnceValue.call, OnceValue.new, NewMetaClient]

theorem AzureFuncs_calls_count (W : World) (s : Runtime × AzureFuncs)
    (calls : List (GoString × List GoString)) :
    (AzureFuncs.calls W s calls).1.newMetaClientCalls
        = s.1.newMetaClientCalls + calls.length ∧
      (AzureFuncs.calls W s calls).1.clients.length = s.1.clients.length + calls.length := by
  induction calls generalizing s with
  | nil => simp [AzureFuncs.calls]
  | cons call rest ih =>
    obtain ⟨key, defs⟩ := call
    have hstep := AzureFuncs_Meta_step W s.1 s.2 key defs
    have := ih (AzureFuncs.Meta W s.1 s.2 key defs).1
    simp only [AzureFuncs.calls, List.length_cons]
    rw [this.1, this.2, hstep.1, hstep.2.1]
    constructor <;> omega

/-- C8 fails on the code: `AzureFuncs.Meta` wraps the constructor in a new
`sync.OnceValue` on every call, so after `n` sequential calls on one namespace
`NewMetaClient` has been invoked `n` times and `n` clients exist, and every
call runs on a client just constructed, whose transport is not built yet;
two calls construct two clients. -/
theorem AzureFuncs_Meta_constructs_on_every_call (W : World) (gcpopts : ClientOptions)
    (calls : List (GoString × List GoString)) :
    (AzureFuncs.calls W (CreateAzureFuncs gcpopts) calls).1.newMetaClientCalls
        = calls.length ∧
      (AzureFuncs.calls W (CreateAzureFuncs gcpopts) calls).1.clients.length
        = calls.length ∧
      (∀ (rt : Runtime) (a : AzureFuncs) (key : GoString) (defs : List GoString),
        (AzureFuncs.Meta W rt a key defs).1.2.metaClient = some rt.clients.length ∧
        (AzureFuncs.Meta W rt a key defs).2
          = (Azure.Meta W (NewMetaClient.object W a.gcpopts) key defs).2 ∧
        (NewMetaClient.object W a.gcpopts).client = none) ∧
      (AzureFuncs.calls W (CreateAzureFuncs gcpopts)
        [("compute/name".toList, []), ("compute/name".toList, [])]).1.newMetaClientCalls
        = 2 := by
  have h := AzureFuncs_calls_count W (CreateAzureFuncs gcpopts) calls
  have h2 := AzureFuncs_calls_count W (CreateAzureFuncs gcpopts)
    [("compute/name".toList, []), ("compute/name".toList, [])]
  refine ⟨by simpa [CreateAzureFuncs] using h.1, by simpa [CreateAzureFuncs] using h.2,
    ?_, by simpa [CreateAzureFuncs] using h2.1⟩
  intro rt a key defs
  have hs := AzureFuncs_Meta_step W rt a key defs
  exact ⟨hs.2.2.1, hs.2.2.2.2, rfl⟩

end Azure
